import Mathlib

/-!
Verification development for the garage object store.

Each Rust module relevant to the checked claims is shallowly embedded as
executable Lean definitions: BTreeMap values become key-sorted association
lists, mutation becomes explicit state passing, fallible calls return
Option or Except, and machine integers are modelled as Nat or Int with
explicit wrapping where overflow is possible.
-/

set_option autoImplicit false

namespace Garage

/-! ## Association list utilities (model of BTreeMap / ordered KV trees) -/

/-- Lookup in an association list: first value bound to key `k`. -/
def lookupKV {α β : Type} [DecidableEq α] (l : List (α × β)) (k : α) : Option β :=
  (l.find? (fun kv => kv.1 = k)).map (fun kv => kv.2)

/-- Key-ordered insertion with an explicit strict order `lt`, replacing an
existing binding of the same key.  This mirrors `BTreeMap::insert` on a
representation sorted by key. -/
def insertKVBy {α β : Type} [DecidableEq α] (lt : α → α → Bool) (k : α) (v : β) :
    List (α × β) → List (α × β)
  | [] => [(k, v)]
  | (k2, v2) :: rest =>
    if lt k k2 then (k, v) :: (k2, v2) :: rest
    else if k = k2 then (k, v) :: rest
    else (k2, v2) :: insertKVBy lt k v rest

/-- Strict lexicographic order on the character lists of two strings,
computable by the kernel (the BTreeMap key order for String keys). -/
def strLtB : List Char → List Char → Bool
  | [], [] => false
  | [], _ :: _ => true
  | _ :: _, [] => false
  | a :: as, b :: bs => decide (a.toNat < b.toNat) || (a == b && strLtB as bs)

/-- Strict order on strings used as BTreeMap keys. -/
def strLt (a b : String) : Bool := strLtB a.data b.data

/-- Strict order on Nat used as BTreeMap keys. -/
def natLt (a b : Nat) : Bool := decide (a < b)

/-- BTreeMap insertion for String keys. -/
def insertKV {β : Type} (k : String) (v : β) (l : List (String × β)) :
    List (String × β) :=
  insertKVBy strLt k v l

/-- BTreeMap insertion for Nat keys (uuids). -/
def insertNatKV {β : Type} (k : Nat) (v : β) (l : List (Nat × β)) :
    List (Nat × β) :=
  insertKVBy natLt k v l

/-- Wrapping 64-bit two-complement addition on the Int model of i64. -/
def i64Add (a b : Int) : Int :=
  Int.bmod (a + b) (2 ^ 64)

/-- The value of `i64::MIN`. -/
def I64_MIN : Int := -9223372036854775808

/-! ## model/index_counter.rs: CounterValue and CounterEntry

`CounterValue` holds `node_values: BTreeMap<Uuid, (u64, i64)>`, a map from a
node uuid to a pair (local_seq, signed_count). Uuids are modelled as Nat. -/

structure CounterValue where
  node_values : List (Nat × (Nat × Int))
  deriving DecidableEq, Repr

/-- `CounterEntry` in the global counter table. The schema partition and sort
keys are opaque here and modelled as Nat; `values` maps a counter name to a
`CounterValue`. -/
structure CounterEntry where
  pk : Nat
  sk : Nat
  values : List (String × CounterValue)
  deriving DecidableEq, Repr

/-- Embedding of `impl Crdt for CounterValue :: merge` (index_counter.rs lines
83-95).  For every node present in `other`: if the node is present in `self`
with pair `(t, e)` and the incoming `(t2, e2)` has `t2 > t`, the code executes
only `*e = *e2` (the stored pair becomes `(t, e2)`); if the node is absent it
inserts `(t2, e2)`. -/
def CounterValue.merge (self other : CounterValue) : CounterValue :=
  { node_values :=
      other.node_values.foldl
        (fun acc nv =>
          let node := nv.1
          let t2 := nv.2.1
          let e2 := nv.2.2
          match lookupKV acc node with
          | some te =>
            if t2 > te.1 then insertNatKV node (te.1, e2) acc else acc
          | none => insertNatKV node (t2, e2) acc)
        self.node_values }

/-- Embedding of `impl Crdt for CounterEntry :: merge` (index_counter.rs lines
71-81): for every name in `other.values`, merge into the existing
`CounterValue` if present, otherwise insert a copy of the incoming one. -/
def CounterEntry.merge (self other : CounterEntry) : CounterEntry :=
  { self with
      values :=
        other.values.foldl
          (fun acc nv =>
            match lookupKV acc nv.1 with
            | some e => insertKV nv.1 (CounterValue.merge e nv.2) acc
            | none => insertKV nv.1 nv.2 acc)
          self.values }

/-- Embedding of `CounterEntry::filtered_values` (index_counter.rs lines
45-62). The ring is reduced to `ring.layout.node_id_vec`, the list of node
uuids currently in the layout. For every counter name the per-node signed
counts of nodes in the ring are collected; when the list is non-empty the
code inserts `new_vals.iter().fold(i64::MIN, |a, b| a + *b)` into the result
map. Addition of i64 values is modelled as wrapping. -/
def CounterEntry.filtered_values (self : CounterEntry) (nodes : List Nat) :
    List (String × Int) :=
  self.values.foldl
    (fun ret nv =>
      let new_vals := (nv.2.node_values.filter (fun x => nodes.contains x.1)).map
        (fun x => x.2.2)
      if new_vals.isEmpty then ret
      else insertKV nv.1 (new_vals.foldl i64Add I64_MIN) ret)
    []

/-- C1: the claim states that the merge on counter entries is a CRDT join, in
particular that `merge (merge e u1) u2 = merge (merge e u2) u1` and that for
each node the merged entry holds the pair with the greatest `local_seq`.  The
code violates this: `CounterValue::merge` overwrites the count without
updating the stored `local_seq`, so with `e = (seq 1, count 10)`,
`u1 = (seq 3, count 30)`, `u2 = (seq 2, count 20)` for one node, the two merge
orders disagree (one yields count 30, the other count 20) and merging `u1`
into `e` keeps the stale sequence number 1 instead of 3. -/
theorem counter_merge_crdt_violation :
    CounterEntry.merge
        (CounterEntry.merge (⟨0, 0, [("c", ⟨[(1, (1, 10))]⟩)]⟩ : CounterEntry)
          ⟨0, 0, [("c", ⟨[(1, (3, 30))]⟩)]⟩)
        ⟨0, 0, [("c", ⟨[(1, (2, 20))]⟩)]⟩ ≠
      CounterEntry.merge
        (CounterEntry.merge (⟨0, 0, [("c", ⟨[(1, (1, 10))]⟩)]⟩ : CounterEntry)
          ⟨0, 0, [("c", ⟨[(1, (2, 20))]⟩)]⟩)
        ⟨0, 0, [("c", ⟨[(1, (3, 30))]⟩)]⟩ ∧
    CounterEntry.merge (⟨0, 0, [("c", ⟨[(1, (1, 10))]⟩)]⟩ : CounterEntry)
        ⟨0, 0, [("c", ⟨[(1, (3, 30))]⟩)]⟩ =
      ⟨0, 0, [("c", ⟨[(1, (1, 30))]⟩)]⟩ := by
  decide

/-- C2: the claim states that `filtered_values` returns, for each counter name
with a contributing node in the ring, exactly the sum of the per-node signed
counts of ring nodes.  The code folds the counts starting from `i64::MIN`
instead of 0, so for an entry with a single count 5 held by ring node 1 the
returned aggregate is `i64::MIN + 5`, not 5. -/
theorem filtered_values_not_sum :
    CounterEntry.filtered_values (⟨0, 0, [("c", ⟨[(1, (1, 5))]⟩)]⟩ : CounterEntry) [1] =
      [("c", -9223372036854775803)] ∧
    CounterEntry.filtered_values (⟨0, 0, [("c", ⟨[(1, (1, 5))]⟩)]⟩ : CounterEntry) [1] ≠
      [("c", 5)] := by
  decide

/-! ## block/manager.rs: local block files

The on-disk state for one block hash is reduced to which of the two forms
exist: the plain file (name = hex hash) and the compressed file (suffix
`.zst`). -/

structure BlockDisk where
  plain : Bool
  zst : Bool
  deriving DecidableEq, Repr

/-- Embedding of `BlockManager::is_block_compressed` (manager.rs lines
606-614): check the `.zst` path first, then the plain path; error when
neither exists. -/
def is_block_compressed (d : BlockDisk) : Option Bool :=
  if d.zst then some true
  else if d.plain then some false
  else none

/-- Embedding of `BlockManagerLocked::write_block` (manager.rs lines 662-726),
reduced to its effect on which forms exist on disk.  The match on
`(is_block_compressed, compressed)`: a compressed file on disk is a no-op for
any desired form; a plain file on disk is a no-op when plain is desired, and
otherwise the `.zst` file is written and the plain one deleted; when no file
exists the desired form is written. -/
def write_block (d : BlockDisk) (compressed : Bool) : BlockDisk :=
  match is_block_compressed d, compressed with
  | some true, _ => d
  | some false, false => d
  | some false, true => { plain := false, zst := true }
  | none, c => if c then { d with zst := true } else { d with plain := true }

/-- C3 counterexample: when the compressed form is on disk and the desired
form is plain ("the other form is present"), the claim says the desired form
is written and the old one deleted; the code instead returns without writing
anything, keeping only the `.zst` file. -/
theorem write_block_keeps_compressed :
    write_block ⟨false, true⟩ false = ⟨false, true⟩ ∧
    (⟨false, true⟩ : BlockDisk) ≠ ⟨true, false⟩ := by
  decide

/-- C3 (amended): `write_block` is a no-op when the desired form is already on
disk, and also when the compressed form is on disk and plain is desired; only
in the plain-on-disk, compressed-desired case does it write the compressed
form and delete the plain one; with neither form present it writes exactly
the desired form; and starting from at most one form on disk, at most one
form exists when the call returns. -/
theorem write_block_spec (d : BlockDisk) (c : Bool)
    (h : ¬(d.plain = true ∧ d.zst = true)) :
    ¬((write_block d c).plain = true ∧ (write_block d c).zst = true) ∧
    (d.zst = true → write_block d c = d) ∧
    (d.plain = true → c = false → write_block d c = d) ∧
    (d.plain = true → d.zst = false → c = true → write_block d c = ⟨false, true⟩) ∧
    (d.plain = false → d.zst = false → write_block d c = ⟨!c, c⟩) := by
  obtain ⟨p, z⟩ := d
  cases p <;> cases z <;> cases c <;> simp_all [write_block, is_block_compressed]

/-- Witness for `write_block_spec` at the state with only the plain form on
disk and a compressed write requested. -/
theorem write_block_spec_witness :
    ¬((write_block ⟨true, false⟩ true).plain = true ∧
      (write_block ⟨true, false⟩ true).zst = true) :=
  (write_block_spec ⟨true, false⟩ true (by decide)).1

/-! ## block/repair.rs: the scrub worker

Persistent state lives in `state_variables_store`, modelled as an association
list from string keys to Nat values (the code stores the big-endian bytes of
a u64). -/

def TIME_LAST_COMPLETE_SCRUB : String := "time_last_complete_scrub"

/-- `SCRUB_INTERVAL = Duration::from_secs(3600 * 24 * 30)` (repair.rs line
21), in seconds. -/
def SCRUB_INTERVAL_SECS : Nat := 3600 * 24 * 30

/-- The three states of `ScrubWorkerState` (repair.rs lines 147-151).  The
`Running` iterator always starts from the root of the data directory
(`BlockStoreIterator::new`), so it carries no resume position here. -/
inductive ScrubWorkState where
  | Running : ScrubWorkState
  | Paused : Nat → ScrubWorkState
  | Finished : ScrubWorkState
  deriving DecidableEq, Repr

structure ScrubWorkerState where
  work : ScrubWorkState
  tranquility : Nat
  time_last_complete_scrub : Nat
  deriving DecidableEq, Repr

/-- Embedding of `ScrubWorker::new` (repair.rs lines 167-189): the only datum
read from the persistent store is `TIME_LAST_COMPLETE_SCRUB` (defaulting to
0), and the initial work state is `Finished`. -/
def ScrubWorker.new (store : List (String × Nat)) (tranquility : Nat) :
    ScrubWorkerState :=
  { work := ScrubWorkState.Finished
    tranquility := tranquility
    time_last_complete_scrub := (lookupKV store TIME_LAST_COMPLETE_SCRUB).getD 0 }

/-- Embedding of the sweep-completion branch of `ScrubWorker::work`
(repair.rs lines 278-287): when the iterator is exhausted, record `now` as
the last complete scrub time, persist it under `TIME_LAST_COMPLETE_SCRUB`,
and become `Finished`. -/
def scrub_sweep_complete (w : ScrubWorkerState) (store : List (String × Nat))
    (now : Nat) : ScrubWorkerState × List (String × Nat) :=
  ({ w with time_last_complete_scrub := now, work := ScrubWorkState.Finished },
   insertKV TIME_LAST_COMPLETE_SCRUB now store)

/-- Embedding of the delay computed by `ScrubWorker::wait_for_work` in the
`Finished` state (repair.rs lines 307-318):
`SCRUB_INTERVAL - Duration::from_secs(now_msec() - time_last_complete_scrub)`.
The difference of the two millisecond clocks is fed to `from_secs`, so it is
treated as a number of seconds; `none` models the panic of the Duration
subtraction when the result would be negative.  The returned value is the
sleep duration in milliseconds. -/
def scrub_wait_delay_ms (now_ms last_ms : Nat) : Option Nat :=
  if now_ms - last_ms ≤ SCRUB_INTERVAL_SECS then
    some ((SCRUB_INTERVAL_SECS - (now_ms - last_ms)) * 1000)
  else none

/-- Keys present after a key-ordered insertion: at most the inserted key and
the previous keys. -/
theorem keys_insertKVBy_subset {α β : Type} [DecidableEq α] (lt : α → α → Bool)
    (k : α) (v : β) (l : List (α × β)) :
    (insertKVBy lt k v l).map Prod.fst ⊆ k :: l.map Prod.fst := by
  induction l with
  | nil =>
    intro a ha
    simpa [insertKVBy] using ha
  | cons hd tl ih =>
    intro a ha
    obtain ⟨k2, v2⟩ := hd
    simp only [insertKVBy] at ha
    by_cases h1 : lt k k2
    · rw [if_pos h1] at ha
      simpa using ha
    · rw [if_neg h1] at ha
      by_cases h2 : k = k2
      · rw [if_pos h2] at ha
        simp only [List.map_cons, List.mem_cons] at ha
        rcases ha with rfl | ha2
        · simp
        · simp [ha2]
      · rw [if_neg h2] at ha
        simp only [List.map_cons, List.mem_cons] at ha
        rcases ha with rfl | ha2
        · simp
        · rcases List.mem_cons.mp (ih ha2) with rfl | h3
          · simp
          · simp [h3]

/-- Looking up the key just inserted returns the inserted value. -/
theorem lookupKV_insertKVBy_self {α β : Type} [DecidableEq α] (lt : α → α → Bool)
    (k : α) (v : β) (l : List (α × β)) :
    lookupKV (insertKVBy lt k v l) k = some v := by
  induction l with
  | nil => simp [insertKVBy, lookupKV]
  | cons hd tl ih =>
    obtain ⟨k2, v2⟩ := hd
    simp only [insertKVBy]
    by_cases h1 : lt k k2
    · rw [if_pos h1]
      simp [lookupKV]
    · rw [if_neg h1]
      by_cases h2 : k = k2
      · rw [if_pos h2]
        simp [lookupKV]
      · rw [if_neg h2]
        simp only [lookupKV, List.find?] at ih ⊢
        have hne : (decide (k2 = k)) = false := by
          simpa using fun h : k2 = k => h2 h.symm
        simp [hne, ih]

/-- C4 counterexample: complete a sweep at time 1000 starting from an empty
persistent store, then restart.  The restarted worker is in the `Finished`
state (there is no sweep position to resume), the persisted store holds only
the `time_last_complete_scrub` key (no sweep-position hash), and with the
last complete scrub at millisecond 0 and the current time at millisecond
1000000, the next sweep is scheduled 1592000000 ms later, which is not 30
days after the last complete scrub. -/
theorem scrub_worker_counterexample :
    (ScrubWorker.new (scrub_sweep_complete (ScrubWorker.new [] 4) [] 1000).2 4).work =
      ScrubWorkState.Finished ∧
    (scrub_sweep_complete (ScrubWorker.new [] 4) [] 1000).2.map Prod.fst =
      [TIME_LAST_COMPLETE_SCRUB] ∧
    scrub_wait_delay_ms 1000000 0 = some 1592000000 ∧
    1000000 + 1592000000 ≠ 0 + SCRUB_INTERVAL_SECS * 1000 := by
  decide

/-- C4 (amended): the scrub worker persists exactly one scrub datum, the
timestamp of the last complete scrub; on startup it reads that timestamp back
and starts in the `Finished` state, so a sweep never resumes from a saved
position; and in the `Finished` state the next sweep is scheduled after
`SCRUB_INTERVAL - from_secs(now_msec - time_last_complete_scrub)`, a delay of
`(SCRUB_INTERVAL_SECS - elapsed_ms) seconds` that treats the elapsed
millisecond count as seconds (the code panics once `elapsed_ms` exceeds
`SCRUB_INTERVAL_SECS`). -/
theorem scrub_worker_spec (store : List (String × Nat)) (w : ScrubWorkerState)
    (now last tq : Nat) (h : now - last ≤ SCRUB_INTERVAL_SECS) :
    (ScrubWorker.new store tq).work = ScrubWorkState.Finished ∧
    (ScrubWorker.new store tq).time_last_complete_scrub =
      (lookupKV store TIME_LAST_COMPLETE_SCRUB).getD 0 ∧
    ((scrub_sweep_complete w store now).2.map Prod.fst ⊆
      TIME_LAST_COMPLETE_SCRUB :: store.map Prod.fst) ∧
    (ScrubWorker.new (scrub_sweep_complete w store now).2 tq).time_last_complete_scrub
      = now ∧
    scrub_wait_delay_ms now last =
      some ((SCRUB_INTERVAL_SECS - (now - last)) * 1000) := by
  refine ⟨rfl, rfl, ?_, ?_, ?_⟩
  · exact keys_insertKVBy_subset _ _ _ _
  · simp [ScrubWorker.new, scrub_sweep_complete, insertKV,
      lookupKV_insertKVBy_self]
  · simp [scrub_wait_delay_ms, h]

/-- Witness for `scrub_worker_spec` at a concrete store and clock values. -/
theorem scrub_worker_spec_witness :
    scrub_wait_delay_ms 1000000 0 =
      some ((SCRUB_INTERVAL_SECS - (1000000 - 0)) * 1000) :=
  (scrub_worker_spec [] (ScrubWorker.new [] 4) 1000000 0 4 (by decide)).2.2.2.2

/-! ## The object data model

Modelled from the spec: `object_table.rs` is not under src/ (only its callers
are).  Spec §3.2: an object value is a list of `ObjectVersion` ordered by
`(timestamp, uuid)`, each version in state `Uploading`, `Complete(data)` or
`Aborted`, with `data` one of `DeleteMarker`, `Inline(meta, bytes)` or
`FirstBlock(meta, hash)`.  Version headers are irrelevant to the claims and
omitted; bytes are Nat lists; hashes and uuids are Nat. -/

structure ObjectVersionMeta where
  size : Nat
  etag : String
  deriving DecidableEq, Repr

inductive ObjectVersionData where
  | DeleteMarker : ObjectVersionData
  | Inline : ObjectVersionMeta → List Nat → ObjectVersionData
  | FirstBlock : ObjectVersionMeta → Nat → ObjectVersionData
  deriving DecidableEq, Repr

inductive ObjectVersionState where
  | Uploading : Bool → ObjectVersionState
  | Complete : ObjectVersionData → ObjectVersionState
  | Aborted : ObjectVersionState
  deriving DecidableEq, Repr

structure ObjectVersion where
  uuid : Nat
  timestamp : Nat
  state : ObjectVersionState
  deriving DecidableEq, Repr

structure Object where
  bucket_id : Nat
  key : String
  versions : List ObjectVersion
  deriving DecidableEq, Repr

/-- Modelled from the spec: `ObjectVersion::is_data` (object_table.rs is not
under src/) — a version carries data when it is complete and not a delete
marker. -/
def ObjectVersion.is_data (v : ObjectVersion) : Bool :=
  match v.state with
  | ObjectVersionState.Complete ObjectVersionData.DeleteMarker => false
  | ObjectVersionState.Complete _ => true
  | _ => false

/-- Size contributed by a version to the bucket byte counter. -/
def ObjectVersion.data_size (v : ObjectVersion) : Nat :=
  match v.state with
  | ObjectVersionState.Complete (ObjectVersionData.Inline meta _) => meta.size
  | ObjectVersionState.Complete (ObjectVersionData.FirstBlock meta _) => meta.size
  | _ => 0

def OBJECTS : String := "objects"
def BYTES : String := "bytes"
def UNFINISHED_UPLOADS : String := "unfinished_uploads"

/-- Modelled from the spec: `Object::counts` (object_table.rs is not under
src/).  Spec §4.10: the object counter table tracks, per object,
`(objects, bytes, unfinished_uploads)`: whether the object has a live data
version, the total bytes of its complete versions, and the number of
versions still uploading. -/
def Object.counts (o : Object) : List (String × Int) :=
  [(OBJECTS, if o.versions.any ObjectVersion.is_data then 1 else 0),
   (UNFINISHED_UPLOADS,
     ((o.versions.filter (fun v =>
        match v.state with
        | ObjectVersionState.Uploading _ => true
        | _ => false)).length : Int)),
   (BYTES, ((o.versions.map ObjectVersion.data_size).sum : Int))]

/-! ## api/s3/put.rs: version timestamp allocation -/

/-- Embedding of `next_timestamp` (put.rs lines 636-642): the maximum of the
existing version timestamps, plus one, clamped from below by the current
clock; the clock alone when there is no existing object. -/
def next_timestamp (now : Nat) (existing_object : Option Object) : Nat :=
  match existing_object with
  | some o =>
    match (o.versions.map (fun v => v.timestamp)).max? with
    | some t => max (t + 1) now
    | none => now
  | none => now

/-- A left fold of `max` belongs to the seed-and-list. -/
theorem foldl_max_mem (l : List Nat) : ∀ a : Nat, l.foldl max a ∈ a :: l := by
  induction l with
  | nil => intro a; simp
  | cons b t ih =>
    intro a
    have h := ih (max a b)
    show List.foldl max (max a b) t ∈ a :: b :: t
    rcases List.mem_cons.mp h with h1 | h1
    · rcases max_choice a b with h2 | h2
      · rw [h1, h2]
        exact List.mem_cons_self _ _
      · rw [h1, h2]
        exact List.mem_cons_of_mem _ (List.mem_cons_self _ _)
    · exact List.mem_cons_of_mem _ (List.mem_cons_of_mem _ h1)

/-- The seed is below a left fold of `max`. -/
theorem le_foldl_max (l : List Nat) : ∀ a : Nat, a ≤ l.foldl max a := by
  induction l with
  | nil => intro a; simp
  | cons b t ih =>
    intro a
    exact le_trans (le_max_left a b) (ih (max a b))

/-- Every list element is below a left fold of `max` over the list. -/
theorem foldl_max_ub (l : List Nat) : ∀ (a : Nat), ∀ t ∈ l, t ≤ l.foldl max a := by
  induction l with
  | nil => intro a t ht; simp at ht
  | cons b r ih =>
    intro a t ht
    rcases List.mem_cons.mp ht with rfl | ht2
    · exact le_trans (le_max_right a t) (le_foldl_max r (max a t))
    · exact ih (max a b) t ht2

/-- A non-empty Nat list has a `max?` that is a member and an upper bound. -/
theorem max?_spec (l : List Nat) (h : l ≠ []) :
    ∃ M, l.max? = some M ∧ M ∈ l ∧ ∀ t ∈ l, t ≤ M := by
  match l, h with
  | a :: t, _ =>
    refine ⟨t.foldl max a, rfl, foldl_max_mem t a, ?_⟩
    intro x hx
    rcases List.mem_cons.mp hx with rfl | hx2
    · exact le_foldl_max t x
    · exact foldl_max_ub t a x hx2

/-- C7: for a PUT against an existing object with at least one version, the
allocated timestamp is `max(now, M+1)` where `M` is the greatest timestamp
among the existing versions; with no existing object it is `now`. -/
theorem next_timestamp_spec (now : Nat) (o : Object) (h : o.versions ≠ []) :
    (∃ M, M ∈ o.versions.map (fun v => v.timestamp) ∧
      (∀ t ∈ o.versions.map (fun v => v.timestamp), t ≤ M) ∧
      next_timestamp now (some o) = max now (M + 1)) ∧
    next_timestamp now none = now := by
  have hne : o.versions.map (fun v => v.timestamp) ≠ [] := by
    simpa using h
  obtain ⟨M, hM, hmem, hub⟩ := max?_spec _ hne
  refine ⟨⟨M, hmem, hub, ?_⟩, rfl⟩
  simp [next_timestamp, hM, Nat.max_comm]

/-- Witness for `next_timestamp_spec`: an object with one version at
timestamp 5 and clock 3 yields timestamp 6. -/
theorem next_timestamp_spec_witness :
    next_timestamp 3 (some ⟨0, "k", [⟨7, 5, ObjectVersionState.Aborted⟩]⟩) = 6 ∧
    next_timestamp 3 none = 3 := by
  have h := next_timestamp_spec 3 ⟨0, "k", [⟨7, 5, ObjectVersionState.Aborted⟩]⟩
    (by simp)
  exact ⟨by decide, h.2⟩

/-! ## api/s3/put.rs: quota checking -/

inductive ApiError where
  | Forbidden : String → ApiError
  | BadRequest : String → ApiError
  deriving DecidableEq, Repr

structure BucketQuotas where
  max_size : Option Nat
  max_objects : Option Nat
  deriving DecidableEq, Repr

/-- The `(prev_cnt_obj, prev_cnt_size)` pair of `check_quotas` (put.rs lines
264-273): the OBJECTS and BYTES counts of the previous object at the key,
defaulting to 0. -/
def prev_counts (prev_object : Option Object) : Int × Int :=
  match prev_object with
  | some o => ((lookupKV o.counts OBJECTS).getD 0, (lookupKV o.counts BYTES).getD 0)
  | none => (0, 0)

/-- `cnt_obj_diff = 1 - prev_cnt_obj` (put.rs line 274). -/
def cnt_obj_diff (prev_object : Option Object) : Int :=
  1 - (prev_counts prev_object).1

/-- `cnt_size_diff = size as i64 - prev_cnt_size` (put.rs line 275). -/
def cnt_size_diff (size : Nat) (prev_object : Option Object) : Int :=
  (size : Int) - (prev_counts prev_object).2

/-- The object-count quota test of `check_quotas` (put.rs lines 277-285):
rejects when the diff is positive and the new total exceeds `max_objects`. -/
def check_quota_objects (mo? : Option Nat) (cnts : List (String × Int))
    (prev_object : Option Object) : Except ApiError Unit :=
  match mo? with
  | some mo =>
    if cnt_obj_diff prev_object > 0 ∧
        (lookupKV cnts OBJECTS).getD 0 + cnt_obj_diff prev_object > (mo : Int) then
      Except.error (ApiError.Forbidden
        "Object quota is reached, maximum objects for this bucket")
    else Except.ok ()
  | none => Except.ok ()

/-- The size quota test of `check_quotas` (put.rs lines 287-295): rejects
when the size diff is positive and the new total exceeds `max_size`. -/
def check_quota_size (ms? : Option Nat) (cnts : List (String × Int)) (size : Nat)
    (prev_object : Option Object) : Except ApiError Unit :=
  match ms? with
  | some ms =>
    if cnt_size_diff size prev_object > 0 ∧
        (lookupKV cnts BYTES).getD 0 + cnt_size_diff size prev_object > (ms : Int) then
      Except.error (ApiError.Forbidden
        "Bucket size quota is reached, maximum total size of objects for this bucket")
    else Except.ok ()
  | none => Except.ok ()

/-- Embedding of `check_quotas` (put.rs lines 236-298).  `counters` stands for
the result of reading the bucket object-counter entry and filtering it by the
cluster layout; the second component of the result records whether that read
was performed.  With neither quota configured the function returns before the
read.  Otherwise the object-count quota is checked first, then the size
quota. -/
def check_quotas (quotas : BucketQuotas) (counters : Option (List (String × Int)))
    (size : Nat) (prev_object : Option Object) : Except ApiError Unit × Bool :=
  if quotas.max_objects = none ∧ quotas.max_size = none then (Except.ok (), false)
  else
    match check_quota_objects quotas.max_objects (counters.getD []) prev_object with
    | Except.error e => (Except.error e, true)
    | Except.ok _ =>
      match check_quota_size quotas.max_size (counters.getD []) size prev_object with
      | Except.error e => (Except.error e, true)
      | Except.ok _ => (Except.ok (), true)

/-- With a non-positive object-count diff the object quota test passes. -/
theorem check_quota_objects_ok (mo? : Option Nat) (cnts : List (String × Int))
    (prev : Option Object) (h : cnt_obj_diff prev ≤ 0) :
    check_quota_objects mo? cnts prev = Except.ok () := by
  cases mo? with
  | none => rfl
  | some mo =>
    show (if cnt_obj_diff prev > 0 ∧
        (lookupKV cnts OBJECTS).getD 0 + cnt_obj_diff prev > (mo : Int) then
      Except.error (ApiError.Forbidden
        "Object quota is reached, maximum objects for this bucket")
    else Except.ok ()) = Except.ok ()
    rw [if_neg]
    intro hc
    exact absurd h (not_le.mpr hc.1)

/-- With a non-positive size diff the size quota test passes. -/
theorem check_quota_size_ok (ms? : Option Nat) (cnts : List (String × Int))
    (size : Nat) (prev : Option Object) (h : cnt_size_diff size prev ≤ 0) :
    check_quota_size ms? cnts size prev = Except.ok () := by
  cases ms? with
  | none => rfl
  | some ms =>
    show (if cnt_size_diff size prev > 0 ∧
        (lookupKV cnts BYTES).getD 0 + cnt_size_diff size prev > (ms : Int) then
      Except.error (ApiError.Forbidden
        "Bucket size quota is reached, maximum total size of objects for this bucket")
    else Except.ok ()) = Except.ok ()
    rw [if_neg]
    intro hc
    exact absurd h (not_le.mpr hc.1)

/-- C10: `check_quotas` accepts any upload whose object-count diff and size
diff versus the previous object are both non-positive, whatever the counter
values; and when neither quota is configured it accepts without reading the
counter table. -/
theorem check_quotas_nonpositive_delta (quotas : BucketQuotas)
    (counters : Option (List (String × Int))) (size : Nat) (prev : Option Object)
    (h1 : cnt_obj_diff prev ≤ 0) (h2 : cnt_size_diff size prev ≤ 0) :
    (check_quotas quotas counters size prev).1 = Except.ok () ∧
    (quotas.max_objects = none → quotas.max_size = none →
      check_quotas quotas counters size prev = (Except.ok (), false)) := by
  constructor
  · unfold check_quotas
    by_cases hq : quotas.max_objects = none ∧ quotas.max_size = none
    · simp [hq]
    · rw [if_neg hq, check_quota_objects_ok _ _ _ h1,
        check_quota_size_ok _ _ _ _ h2]
  · intro hmo hms
    unfold check_quotas
    simp [hmo, hms]

/-- Witness for `check_quotas_nonpositive_delta`: overwriting a 4-byte object
with a 3-byte one passes even though the bucket already exceeds its quotas. -/
theorem check_quotas_nonpositive_delta_witness :
    (check_quotas ⟨some 1, some 1⟩ (some [(OBJECTS, 10), (BYTES, 100)]) 3
      (some ⟨0, "k", [⟨7, 5, ObjectVersionState.Complete
        (ObjectVersionData.Inline ⟨4, "e"⟩ [1, 2, 3, 4])⟩]⟩)).1 = Except.ok () :=
  (check_quotas_nonpositive_delta ⟨some 1, some 1⟩
    (some [(OBJECTS, 10), (BYTES, 100)]) 3
    (some ⟨0, "k", [⟨7, 5, ObjectVersionState.Complete
      (ObjectVersionData.Inline ⟨4, "e"⟩ [1, 2, 3, 4])⟩]⟩)
    (by decide) (by decide)).1

/-! ## api/s3/put.rs: single-part PUT, inline path -/

/-- `INLINE_THRESHOLD` (block/manager.rs line 47). -/
def INLINE_THRESHOLD : Nat := 3072

/-- The content-md5 part of `ensure_checksum_matches` (put.rs lines 225-231):
compare the header value against the base64 encoding of the computed md5.
The base64 encoder is passed as a parameter. -/
def ensure_md5_matches (b64 : List Nat → String) (data_md5sum : List Nat)
    (content_md5 : Option String) : Except ApiError Unit :=
  match content_md5 with
  | some expected_md5 =>
    if expected_md5 ≠ b64 data_md5sum then
      Except.error (ApiError.BadRequest "Unable to validate content-md5")
    else Except.ok ()
  | none => Except.ok ()

/-- Embedding of `ensure_checksum_matches` (put.rs lines 210-233): validate
the computed sha256 against the signed content-sha256 when present, then the
computed md5 against the content-md5 header when present. -/
def ensure_checksum_matches (b64 : List Nat → String) (data_md5sum : List Nat)
    (data_sha256sum : Nat) (content_md5 : Option String)
    (content_sha256 : Option Nat) : Except ApiError Unit :=
  match content_sha256 with
  | some expected_sha256 =>
    if expected_sha256 ≠ data_sha256sum then
      Except.error (ApiError.BadRequest "Unable to validate x-amz-content-sha256")
    else ensure_md5_matches b64 data_md5sum content_md5
  | none => ensure_md5_matches b64 data_md5sum content_md5

/-- Embedding of the inline branch of `save_stream` (put.rs lines 82-134).
The md5, sha256 and base64 primitives are abstract function parameters;
`version_uuid` stands for `gen_uuid()` and `now` for `now_msec()`.  The
returned list is the trace of rows inserted into the object table, in order.
When the first block is not below `INLINE_THRESHOLD` the function returns
`none`: control passes to the block pipeline, which is outside this path. -/
def save_stream_inline (b64 md5hex : List Nat → String)
    (md5bytes : List Nat → List Nat) (sha256 : List Nat → Nat)
    (version_uuid now bucket_id : Nat) (key : String) (quotas : BucketQuotas)
    (counters : Option (List (String × Int))) (existing_object : Option Object)
    (content_md5 : Option String) (content_sha256 : Option Nat)
    (first_block : List Nat) :
    Option (Except ApiError (Nat × String) × List Object) :=
  if first_block.length < INLINE_THRESHOLD then
    match ensure_checksum_matches b64 (md5bytes first_block) (sha256 first_block)
        content_md5 content_sha256 with
    | Except.error e => some (Except.error e, [])
    | Except.ok _ =>
      match (check_quotas quotas counters first_block.length existing_object).1 with
      | Except.error e => some (Except.error e, [])
      | Except.ok _ =>
        some (Except.ok (version_uuid, md5hex first_block),
          [⟨bucket_id, key,
            [⟨version_uuid, next_timestamp now existing_object,
              ObjectVersionState.Complete
                (ObjectVersionData.Inline ⟨first_block.length, md5hex first_block⟩
                  first_block)⟩]⟩])
  else none

/-- When the object-count condition holds, the object quota test rejects with
the Forbidden object-quota message. -/
theorem check_quota_objects_err (cnts : List (String × Int)) (prev : Option Object)
    (mo : Nat) (h1 : cnt_obj_diff prev > 0)
    (h2 : (lookupKV cnts OBJECTS).getD 0 + cnt_obj_diff prev > (mo : Int)) :
    check_quota_objects (some mo) cnts prev =
      Except.error (ApiError.Forbidden
        "Object quota is reached, maximum objects for this bucket") := by
  show (if cnt_obj_diff prev > 0 ∧
      (lookupKV cnts OBJECTS).getD 0 + cnt_obj_diff prev > (mo : Int) then
    Except.error (ApiError.Forbidden
      "Object quota is reached, maximum objects for this bucket")
  else Except.ok ()) = _
  rw [if_pos ⟨h1, h2⟩]

/-- When the size condition holds, the size quota test rejects with the
Forbidden size-quota message. -/
theorem check_quota_size_err (cnts : List (String × Int)) (size : Nat)
    (prev : Option Object) (ms : Nat) (h1 : cnt_size_diff size prev > 0)
    (h2 : (lookupKV cnts BYTES).getD 0 + cnt_size_diff size prev > (ms : Int)) :
    check_quota_size (some ms) cnts size prev =
      Except.error (ApiError.Forbidden
        "Bucket size quota is reached, maximum total size of objects for this bucket") := by
  show (if cnt_size_diff size prev > 0 ∧
      (lookupKV cnts BYTES).getD 0 + cnt_size_diff size prev > (ms : Int) then
    Except.error (ApiError.Forbidden
      "Bucket size quota is reached, maximum total size of objects for this bucket")
  else Except.ok ()) = _
  rw [if_pos ⟨h1, h2⟩]

/-- The object quota test either passes or rejects with the Forbidden
object-quota message. -/
theorem check_quota_objects_shape (mo? : Option Nat) (cnts : List (String × Int))
    (prev : Option Object) :
    check_quota_objects mo? cnts prev = Except.ok () ∨
    check_quota_objects mo? cnts prev =
      Except.error (ApiError.Forbidden
        "Object quota is reached, maximum objects for this bucket") := by
  cases mo? with
  | none => exact Or.inl rfl
  | some mo =>
    by_cases hc : cnt_obj_diff prev > 0 ∧
        (lookupKV cnts OBJECTS).getD 0 + cnt_obj_diff prev > (mo : Int)
    · exact Or.inr (check_quota_objects_err cnts prev mo hc.1 hc.2)
    · refine Or.inl ?_
      show (if cnt_obj_diff prev > 0 ∧
          (lookupKV cnts OBJECTS).getD 0 + cnt_obj_diff prev > (mo : Int) then
        Except.error (ApiError.Forbidden
          "Object quota is reached, maximum objects for this bucket")
      else Except.ok ()) = _
      rw [if_neg hc]

/-- The exceeded-quota condition: some configured quota would be passed by a
positive diff. -/
def quota_exceeded (quotas : BucketQuotas) (counters : Option (List (String × Int)))
    (size : Nat) (prev : Option Object) : Prop :=
  (∃ mo, quotas.max_objects = some mo ∧ cnt_obj_diff prev > 0 ∧
    (lookupKV (counters.getD []) OBJECTS).getD 0 + cnt_obj_diff prev > (mo : Int)) ∨
  (∃ ms, quotas.max_size = some ms ∧ cnt_size_diff size prev > 0 ∧
    (lookupKV (counters.getD []) BYTES).getD 0 + cnt_size_diff size prev > (ms : Int))

/-- A quota that would be exceeded makes `check_quotas` fail with a Forbidden
error. -/
theorem check_quotas_exceeded (quotas : BucketQuotas)
    (counters : Option (List (String × Int))) (size : Nat) (prev : Option Object)
    (hexceed : quota_exceeded quotas counters size prev) :
    ∃ msg, (check_quotas quotas counters size prev).1 =
      Except.error (ApiError.Forbidden msg) := by
  have hne : ¬(quotas.max_objects = none ∧ quotas.max_size = none) := by
    rcases hexceed with ⟨mo, hmo, _⟩ | ⟨ms, hms, _⟩
    · intro hb
      rw [hb.1] at hmo
      exact Option.noConfusion hmo
    · intro hb
      rw [hb.2] at hms
      exact Option.noConfusion hms
  unfold check_quotas
  rw [if_neg hne]
  rcases check_quota_objects_shape quotas.max_objects (counters.getD []) prev with
    hok | herr
  · rw [hok]
    rcases hexceed with ⟨mo, hmo, hd1, hd2⟩ | ⟨ms, hms, hd1, hd2⟩
    · rw [hmo, check_quota_objects_err _ _ _ hd1 hd2] at hok
      exact absurd hok (by simp)
    · rw [hms, check_quota_size_err _ _ _ _ hd1 hd2]
      exact ⟨_, rfl⟩
  · rw [herr]
    exact ⟨_, rfl⟩

/-- C6: for a single-part PUT whose body is below the inline threshold and
whose checksums validate, if committing would exceed a configured object or
size quota (positive diff versus the previous object at the key), the inline
path of `save_stream` fails with a Forbidden quota-reached error and no row
is inserted into the object table. -/
theorem save_stream_inline_quota_reject (b64 md5hex : List Nat → String)
    (md5bytes : List Nat → List Nat) (sha256 : List Nat → Nat)
    (version_uuid now bucket_id : Nat) (key : String) (quotas : BucketQuotas)
    (counters : Option (List (String × Int))) (existing_object : Option Object)
    (content_md5 : Option String) (content_sha256 : Option Nat)
    (first_block : List Nat)
    (hsize : first_block.length < INLINE_THRESHOLD)
    (hck : ensure_checksum_matches b64 (md5bytes first_block) (sha256 first_block)
      content_md5 content_sha256 = Except.ok ())
    (hexceed : quota_exceeded quotas counters first_block.length existing_object) :
    ∃ msg, save_stream_inline b64 md5hex md5bytes sha256 version_uuid now bucket_id
      key quotas counters existing_object content_md5 content_sha256 first_block =
      some (Except.error (ApiError.Forbidden msg), []) := by
  obtain ⟨msg, hq⟩ := check_quotas_exceeded quotas counters first_block.length
    existing_object hexceed
  refine ⟨msg, ?_⟩
  unfold save_stream_inline
  rw [if_pos hsize, hck, hq]

/-- Witness for `save_stream_inline_quota_reject`: a bucket with
`max_objects = 0` rejects an empty-body PUT of a fresh key before inserting
anything. -/
theorem save_stream_inline_quota_reject_witness :
    ∃ msg, save_stream_inline (fun _ => "") (fun _ => "") (fun _ => [])
      (fun _ => 0) 1 0 0 "k" ⟨none, some 0⟩ none none none none [] =
      some (Except.error (ApiError.Forbidden msg), []) :=
  save_stream_inline_quota_reject (fun _ => "") (fun _ => "") (fun _ => [])
    (fun _ => 0) 1 0 0 "k" ⟨none, some 0⟩ none none none none []
    (by decide) rfl (Or.inl ⟨0, rfl, by decide, by decide⟩)

/-! ## garage/repair.rs: the BlockRefs repair pass -/

/-- Modelled from the spec: the `BlockRef` row (block_ref_table.rs is not
under src/).  Spec §3.4: partition key = block hash, sort key = version uuid,
value a `deleted` boolean CRDT. -/
structure BlockRef where
  block : Nat
  version : Nat
  deleted : Bool
  deriving DecidableEq, Repr

/-- Modelled from the spec: the `Version` row (version_table.rs is not under
src/), reduced to the single field the repair pass reads, its `deleted`
boolean CRDT. -/
structure Version where
  deleted : Bool
  deriving DecidableEq, Repr

/-- Embedding of `Repair::get_next_block_ref_after` (garage/repair.rs lines
164-179): the first row of the block_ref store whose key is strictly greater
than `pos` (`Bound::Excluded`).  The serialized tree key (block hash followed
by version uuid) is modelled as an abstract Nat key, kept alongside each row;
the initial cursor, the empty byte string, is modelled as 0 with all real
keys positive. -/
def get_next_block_ref_after (store : List (Nat × BlockRef)) (pos : Nat) :
    Option (Nat × BlockRef) :=
  (store.filter (fun kv => pos < kv.1)).head?

/-- The per-row body of `Repair::repair_block_ref` (garage/repair.rs lines
131-155): rows already deleted are skipped; otherwise the row's `Version` is
looked up in the version table (`vt`), `ref_exists` is true when it exists
and is not deleted, and when `ref_exists` is false a `BlockRef` with
`deleted = true` is inserted. -/
def block_ref_repair_insert (vt : Nat → Option Version) (br : BlockRef) :
    Option BlockRef :=
  if br.deleted then none
  else
    if (match vt br.version with
        | some v => !v.deleted
        | none => false) then none
    else some ⟨br.block, br.version, true⟩

/-- Advancing the exclusive-bound cursor to the key just returned strictly
shrinks the set of rows still ahead of the cursor. -/
theorem get_next_measure (store : List (Nat × BlockRef)) (pos : Nat)
    (kv : Nat × BlockRef) (h : get_next_block_ref_after store pos = some kv) :
    (store.filter (fun x => kv.1 < x.1)).length <
      (store.filter (fun x => pos < x.1)).length := by
  unfold get_next_block_ref_after at h
  cases hfl : store.filter (fun x => pos < x.1) with
  | nil => rw [hfl] at h; exact Option.noConfusion h
  | cons a tl =>
    rw [hfl] at h
    have ha : a = kv := by simpa using h
    subst ha
    have hmem : a ∈ store.filter (fun x => pos < x.1) := by
      rw [hfl]; exact List.mem_cons_self _ _
    have hpos : pos < a.1 := by
      have := List.of_mem_filter hmem
      simpa using this
    have hsub : store.filter (fun x => a.1 < x.1) =
        (store.filter (fun x => pos < x.1)).filter (fun x => a.1 < x.1) := by
      rw [List.filter_filter]
      apply List.filter_congr
      intro x _
      by_cases hx : a.1 < x.1
      · simp [hx, lt_trans hpos hx]
      · simp [hx]
    rw [hsub, hfl]
    have hhead : ¬(a.1 < a.1) := lt_irrefl _
    calc ((a :: tl).filter (fun x => a.1 < x.1)).length
        = (tl.filter (fun x => a.1 < x.1)).length := by simp [List.filter_cons, hhead]
      _ ≤ tl.length := List.length_filter_le _ _
      _ < (a :: tl).length := by simp

/-- Embedding of the loop of `Repair::repair_block_ref` (garage/repair.rs
lines 125-162): repeatedly fetch the next row after the cursor, process it,
and move the cursor to its key; the returned list is the sequence of
`BlockRef{deleted=true}` rows inserted. -/
def repair_block_ref_loop (vt : Nat → Option Version)
    (store : List (Nat × BlockRef)) (pos : Nat) : List BlockRef :=
  match h : get_next_block_ref_after store pos with
  | none => []
  | some kv =>
    (match block_ref_repair_insert vt kv.2 with
     | some b => [b]
     | none => []) ++ repair_block_ref_loop vt store kv.1
termination_by (store.filter (fun x => pos < x.1)).length
decreasing_by exact get_next_measure store pos kv h

/-- Unfolding of the repair loop when the cursor is past every row. -/
theorem repair_loop_eq_nil (vt : Nat → Option Version)
    (store : List (Nat × BlockRef)) (pos : Nat)
    (h : get_next_block_ref_after store pos = none) :
    repair_block_ref_loop vt store pos = [] := by
  rw [repair_block_ref_loop]
  split
  · rfl
  · rename_i kv heq
    rw [h] at heq
    exact Option.noConfusion heq

/-- Unfolding of the repair loop when a row lies past the cursor. -/
theorem repair_loop_eq_cons (vt : Nat → Option Version)
    (store : List (Nat × BlockRef)) (pos : Nat) (kv : Nat × BlockRef)
    (h : get_next_block_ref_after store pos = some kv) :
    repair_block_ref_loop vt store pos =
      (match block_ref_repair_insert vt kv.2 with
       | some b => [b]
       | none => []) ++ repair_block_ref_loop vt store kv.1 := by
  rw [repair_block_ref_loop]
  split
  · rename_i heq
    rw [h] at heq
    exact Option.noConfusion heq
  · rename_i kv2 heq
    rw [h] at heq
    injection heq with hkv
    subst hkv
    rfl

/-- The key returned by the cursor fetch is strictly past the cursor. -/
theorem get_next_key_gt (store : List (Nat × BlockRef)) (pos : Nat)
    (kv : Nat × BlockRef) (h : get_next_block_ref_after store pos = some kv) :
    pos < kv.1 := by
  unfold get_next_block_ref_after at h
  cases hfl : store.filter (fun x => pos < x.1) with
  | nil => rw [hfl] at h; exact Option.noConfusion h
  | cons a tl =>
    rw [hfl] at h
    have ha : a = kv := by simpa using h
    subst ha
    have hmem : a ∈ store.filter (fun x => pos < x.1) := by
      rw [hfl]; exact List.mem_cons_self _ _
    simpa using List.of_mem_filter hmem

/-- A row whose key is not past the cursor never affects the loop. -/
theorem repair_loop_skip_head (vt : Nat → Option Version) (k : Nat)
    (br : BlockRef) (rest : List (Nat × BlockRef)) :
    ∀ n pos, (rest.filter (fun x => pos < x.1)).length ≤ n → k ≤ pos →
    repair_block_ref_loop vt ((k, br) :: rest) pos =
      repair_block_ref_loop vt rest pos := by
  intro n
  induction n with
  | zero =>
    intro pos hn hk
    have hknot : ¬(pos < k) := not_lt.mpr hk
    have hempty : rest.filter (fun x => pos < x.1) = [] :=
      List.eq_nil_of_length_eq_zero (Nat.le_zero.mp hn)
    have hres : get_next_block_ref_after rest pos = none := by
      unfold get_next_block_ref_after
      rw [hempty]
      rfl
    have hnext : get_next_block_ref_after ((k, br) :: rest) pos = none := by
      unfold get_next_block_ref_after
      simp only [List.filter_cons]
      rw [if_neg (by simpa using hknot)]
      unfold get_next_block_ref_after at hres
      exact hres
    rw [repair_loop_eq_nil vt _ _ hnext, repair_loop_eq_nil vt _ _ hres]
  | succ m ih =>
    intro pos hn hk
    have hknot : ¬(pos < k) := not_lt.mpr hk
    have hnext : get_next_block_ref_after ((k, br) :: rest) pos =
        get_next_block_ref_after rest pos := by
      unfold get_next_block_ref_after
      simp only [List.filter_cons]
      rw [if_neg (by simpa using hknot)]
    cases hres : get_next_block_ref_after rest pos with
    | none =>
      rw [repair_loop_eq_nil vt _ _ (hnext.trans hres),
        repair_loop_eq_nil vt _ _ hres]
    | some kv =>
      have hlt : (rest.filter (fun x => kv.1 < x.1)).length <
          (rest.filter (fun x => pos < x.1)).length :=
        get_next_measure rest pos kv hres
      have hklt : pos < kv.1 := get_next_key_gt rest pos kv hres
      have hrec := ih kv.1 (by omega) (le_of_lt (lt_of_le_of_lt hk hklt))
      rw [repair_loop_eq_cons vt _ _ kv (hnext.trans hres),
        repair_loop_eq_cons vt _ _ kv hres, hrec]

/-- On a store whose keys ascend strictly from the cursor, the repair loop
processes exactly the store rows in order. -/
theorem repair_loop_eq_filterMap (vt : Nat → Option Version) :
    ∀ (store : List (Nat × BlockRef)) (pos : Nat),
    List.Chain (· < ·) pos (store.map Prod.fst) →
    repair_block_ref_loop vt store pos =
      store.filterMap (fun kv => block_ref_repair_insert vt kv.2) := by
  intro store
  induction store with
  | nil =>
    intro pos _
    exact repair_loop_eq_nil vt [] pos rfl
  | cons hd tl ih =>
    intro pos hchain
    obtain ⟨k, br⟩ := hd
    rw [List.map_cons] at hchain
    have hposk : pos < k := (List.chain_cons.mp hchain).1
    have hchain2 : List.Chain (· < ·) k (tl.map Prod.fst) :=
      (List.chain_cons.mp hchain).2
    have hnext : get_next_block_ref_after ((k, br) :: tl) pos = some (k, br) := by
      unfold get_next_block_ref_after
      simp [List.filter_cons, hposk]
    rw [repair_loop_eq_cons vt _ _ _ hnext]
    have hskip := repair_loop_skip_head vt k br tl
      (tl.filter (fun x => k < x.1)).length k (le_refl _) (le_refl k)
    rw [hskip, ih k hchain2, List.filterMap_cons]
    cases hins : block_ref_repair_insert vt br with
    | none => simp [hins]
    | some b => simp [hins]

/-- C8: on a block_ref store whose serialized keys ascend strictly (as in the
DB tree) starting above the initial cursor, the repair pass visits every row
through the exclusive-bound cursor and inserts exactly one
`BlockRef{deleted=true}` for every non-deleted row whose version is missing
from the version table or marked deleted; rows whose version exists live and
rows already deleted produce no insert. -/
theorem repair_block_ref_spec (vt : Nat → Option Version)
    (store : List (Nat × BlockRef))
    (hchain : List.Chain (· < ·) 0 (store.map Prod.fst)) :
    repair_block_ref_loop vt store 0 =
      store.filterMap (fun kv => block_ref_repair_insert vt kv.2) ∧
    (∀ br : BlockRef, br.deleted = true → block_ref_repair_insert vt br = none) ∧
    (∀ br : BlockRef, br.deleted = false →
      (∀ v, vt br.version = some v → v.deleted = false) →
      vt br.version ≠ none → block_ref_repair_insert vt br = none) ∧
    (∀ br : BlockRef, br.deleted = false →
      (vt br.version = none ∨ ∃ v, vt br.version = some v ∧ v.deleted = true) →
      block_ref_repair_insert vt br = some ⟨br.block, br.version, true⟩) := by
  refine ⟨repair_loop_eq_filterMap vt store 0 hchain, ?_, ?_, ?_⟩
  · intro br h
    simp [block_ref_repair_insert, h]
  · intro br h hlive hsome
    cases hv : vt br.version with
    | none => exact absurd hv hsome
    | some v =>
      have := hlive v hv
      simp [block_ref_repair_insert, h, hv, this]
  · intro br h hdead
    rcases hdead with hv | ⟨v, hv, hd⟩
    · simp [block_ref_repair_insert, h, hv]
    · simp [block_ref_repair_insert, h, hv, hd]

/-- Witness for `repair_block_ref_spec` on a two-row store: the live row
whose version is missing gets a tombstone insert, the row with a live
version does not. -/
theorem repair_block_ref_spec_witness :
    repair_block_ref_loop
        (fun u => if u = 5 then some ⟨false⟩ else none)
        [(1, ⟨10, 5, false⟩), (2, ⟨11, 6, false⟩)] 0 =
      [(⟨11, 6, true⟩ : BlockRef)] := by
  have h := repair_block_ref_spec (fun u => if u = 5 then some ⟨false⟩ else none)
    [(1, ⟨10, 5, false⟩), (2, ⟨11, 6, false⟩)]
    (by simp [List.chain_cons])
  rw [h.1]
  decide

/-! ## api/s3/put.rs: StreamChunker

The request body is a stream of byte chunks, modelled as a list of lists.
`BytesBuf` (garage_net, not under src/) is modelled from the spec as a byte
queue: `extend` appends, `len` is the queue length, `take_max(n)` removes and
returns the first `min(n, len)` bytes. -/

structure StreamChunker (α : Type) where
  stream : List (List α)
  read_all : Bool
  block_size : Nat
  buf : List α
  deriving DecidableEq, Repr

/-- `StreamChunker::new` (put.rs lines 507-514). -/
def StreamChunker.new {α : Type} (stream : List (List α)) (block_size : Nat) :
    StreamChunker α :=
  ⟨stream, false, block_size, []⟩

/-- The while loop of `StreamChunker::next` (put.rs lines 517-525): while the
stream is not exhausted and the buffer holds fewer than `block_size` bytes,
pull the next chunk into the buffer; a `None` from the stream sets
`read_all`. -/
def fill {α : Type} : StreamChunker α → StreamChunker α
  | ⟨stream, ra, bs, buf⟩ =>
    if ra = false ∧ buf.length < bs then
      match stream with
      | [] => ⟨[], true, bs, buf⟩
      | chunk :: rest => fill ⟨rest, ra, bs, buf ++ chunk⟩
    else ⟨stream, ra, bs, buf⟩
termination_by c => c.stream.length

/-- Embedding of `StreamChunker::next` (put.rs lines 516-532): fill the
buffer, then return `none` if it is empty and otherwise
`take_max(block_size)`. -/
def StreamChunker.next {α : Type} (c : StreamChunker α) :
    Option (List α) × StreamChunker α :=
  if (fill c).buf.isEmpty then (none, fill c)
  else (some ((fill c).buf.take (fill c).block_size),
    { fill c with buf := (fill c).buf.drop (fill c).block_size })

/-- The bytes a chunker state has not yet emitted: its buffer followed by the
unread stream bytes (none once the stream has reported exhaustion). -/
def rem {α : Type} (c : StreamChunker α) : List α :=
  c.buf ++ (if c.read_all then [] else c.stream.flatten)

/-- Termination measure for repeated `next` calls: bytes not yet emitted
plus the number of stream chunks not yet pulled. -/
def measureC {α : Type} (c : StreamChunker α) : Nat :=
  c.buf.length + (c.stream.map List.length).sum + c.stream.length

/-- The filling loop keeps the block size and the unemitted bytes, does not
increase the measure, and stops only with a full buffer or an exhausted
stream. -/
theorem fill_spec {α : Type} :
    ∀ (stream : List (List α)) (ra : Bool) (bs : Nat) (buf : List α),
    (fill ⟨stream, ra, bs, buf⟩).block_size = bs ∧
    rem (fill ⟨stream, ra, bs, buf⟩) = rem ⟨stream, ra, bs, buf⟩ ∧
    measureC (fill ⟨stream, ra, bs, buf⟩) ≤ measureC ⟨stream, ra, bs, buf⟩ ∧
    ((fill ⟨stream, ra, bs, buf⟩).read_all = false →
      bs ≤ (fill ⟨stream, ra, bs, buf⟩).buf.length) := by
  intro stream
  induction stream with
  | nil =>
    intro ra bs buf
    rw [fill]
    by_cases hcond : ra = false ∧ buf.length < bs
    · obtain ⟨hra, hlen⟩ := hcond
      subst hra
      rw [if_pos ⟨rfl, hlen⟩]
      refine ⟨rfl, ?_, ?_, ?_⟩
      · simp [rem]
      · simp [measureC]
      · intro h
        simp at h
    · rw [if_neg hcond]
      refine ⟨rfl, rfl, le_refl _, ?_⟩
      intro hra
      exact not_lt.mp (fun hl => hcond ⟨hra, hl⟩)
  | cons chunk rest ih =>
    intro ra bs buf
    rw [fill]
    by_cases hcond : ra = false ∧ buf.length < bs
    · obtain ⟨hra, hlen⟩ := hcond
      subst hra
      rw [if_pos ⟨rfl, hlen⟩]
      obtain ⟨ih1, ih2, ih3, ih4⟩ := ih false bs (buf ++ chunk)
      refine ⟨ih1, ?_, ?_, ih4⟩
      · rw [ih2]
        simp [rem, List.append_assoc]
      · refine le_trans ih3 ?_
        simp only [measureC]
        simp [List.map_cons, List.sum_cons]
        omega
    · rw [if_neg hcond]
      refine ⟨rfl, rfl, le_refl _, ?_⟩
      intro hra
      exact not_lt.mp (fun hl => hcond ⟨hra, hl⟩)

theorem fill_block_size {α : Type} (c : StreamChunker α) :
    (fill c).block_size = c.block_size := by
  obtain ⟨st, ra, bs, buf⟩ := c
  exact (fill_spec st ra bs buf).1

theorem fill_rem {α : Type} (c : StreamChunker α) : rem (fill c) = rem c := by
  obtain ⟨st, ra, bs, buf⟩ := c
  exact (fill_spec st ra bs buf).2.1

theorem fill_measure {α : Type} (c : StreamChunker α) :
    measureC (fill c) ≤ measureC c := by
  obtain ⟨st, ra, bs, buf⟩ := c
  exact (fill_spec st ra bs buf).2.2.1

theorem fill_post {α : Type} (c : StreamChunker α) :
    (fill c).read_all = false → c.block_size ≤ (fill c).buf.length := by
  obtain ⟨st, ra, bs, buf⟩ := c
  exact (fill_spec st ra bs buf).2.2.2

/-- A Bool that is not true is false. -/
theorem bool_not_true {b : Bool} (h : ¬b = true) : b = false := by
  cases b
  · rfl
  · exact absurd rfl h

/-- A chunker that has seen the end of its stream no longer fills. -/
theorem fill_of_read_all {α : Type} (st : List (List α)) (bs : Nat)
    (buf : List α) : fill ⟨st, true, bs, buf⟩ = ⟨st, true, bs, buf⟩ := by
  rw [fill.eq_def]
  simp

/-- `next` returns `none` exactly on a state with no bytes left. -/
theorem next_none_iff {α : Type} (c : StreamChunker α)
    (hbs : 1 ≤ c.block_size) : (StreamChunker.next c).1 = none ↔ rem c = [] := by
  constructor
  · intro h
    by_cases he : (fill c).buf.isEmpty
    · have hbuf : (fill c).buf = [] := by simpa using he
      have hra : (fill c).read_all = true := by
        by_contra hra
        have h2 := fill_post c (Bool.not_eq_true _ ▸ Bool.of_not_eq_true hra)
        rw [hbuf] at h2
        simp [fill_block_size] at h2
        omega
      rw [← fill_rem c]
      simp [rem, hbuf, hra]
    · unfold StreamChunker.next at h
      rw [if_neg he] at h
      exact Option.noConfusion h
  · intro h
    have h2 : rem (fill c) = [] := by rw [fill_rem]; exact h
    have hbuf : (fill c).buf = [] := by
      unfold rem at h2
      exact (List.append_eq_nil.mp h2).1
    unfold StreamChunker.next
    rw [if_pos (by simp [hbuf])]

/-- Shape of a successful `next`. -/
theorem next_some_eq {α : Type} (c : StreamChunker α) (ch : List α)
    (c2 : StreamChunker α) (h : StreamChunker.next c = (some ch, c2)) :
    ch = (fill c).buf.take c.block_size ∧
    c2.stream = (fill c).stream ∧ c2.read_all = (fill c).read_all ∧
    c2.block_size = c.block_size ∧
    c2.buf = (fill c).buf.drop c.block_size ∧
    (fill c).buf ≠ [] := by
  unfold StreamChunker.next at h
  by_cases he : (fill c).buf.isEmpty
  · rw [if_pos he] at h
    exact absurd (congrArg Prod.fst h) (by simp)
  · rw [if_neg he] at h
    rw [Prod.mk.injEq] at h
    obtain ⟨h1, h2⟩ := h
    have hch : ch = (fill c).buf.take (fill c).block_size := by
      simpa using h1.symm
    subst h2
    rw [fill_block_size] at hch
    refine ⟨hch, rfl, rfl, ?_, ?_, by simpa using he⟩
    · simp [fill_block_size]
    · simp [fill_block_size]

/-- What one successful `next` call guarantees: the chunk followed by the
new unemitted bytes restores the old ones, the chunk length is in
`[1, block_size]`, the block size is preserved, the measure shrinks, and a
short chunk means nothing is left. -/
theorem next_some_spec {α : Type} (c : StreamChunker α) (ch : List α)
    (c2 : StreamChunker α) (hbs : 1 ≤ c.block_size)
    (h : StreamChunker.next c = (some ch, c2)) :
    ch ++ rem c2 = rem c ∧
    1 ≤ ch.length ∧ ch.length ≤ c.block_size ∧
    c2.block_size = c.block_size ∧
    measureC c2 < measureC c ∧
    (ch.length < c.block_size →
      rem c2 = [] ∧ StreamChunker.next c2 = (none, c2)) := by
  obtain ⟨hch, hstr, hra, hbsz, hbuf, hne⟩ := next_some_eq c ch c2 h
  have hlen1 : 1 ≤ (fill c).buf.length := by
    cases hb : (fill c).buf with
    | nil => exact absurd hb hne
    | cons a l => simp [hb]
  have hchlen : ch.length = min c.block_size (fill c).buf.length := by
    rw [hch, List.length_take]
  have hremc2 : rem c2 = (fill c).buf.drop c.block_size ++
      (if (fill c).read_all then [] else (fill c).stream.flatten) := by
    rw [rem, hstr, hra, hbuf]
  refine ⟨?_, ?_, ?_, hbsz, ?_, ?_⟩
  · rw [hremc2, hch, ← fill_rem c]
    simp only [rem]
    rw [← List.append_assoc, List.take_append_drop]
  · rw [hchlen]
    exact le_min hbs hlen1
  · rw [hchlen]
    exact min_le_left _ _
  · have hfm := fill_measure c
    have hdl : ((fill c).buf.drop c.block_size).length =
        (fill c).buf.length - c.block_size := List.length_drop _ _
    have hm2 : measureC c2 = ((fill c).buf.drop c.block_size).length +
        ((fill c).stream.map List.length).sum + (fill c).stream.length := by
      rw [measureC, hstr, hbuf]
    have hmf : measureC (fill c) = (fill c).buf.length +
        ((fill c).stream.map List.length).sum + (fill c).stream.length := rfl
    rw [hm2]
    rw [hmf] at hfm
    omega
  · intro hshort
    rw [hchlen] at hshort
    have hblt : (fill c).buf.length < c.block_size := by
      rcases Nat.lt_or_ge (fill c).buf.length c.block_size with hl | hl
      · exact hl
      · rw [min_eq_left hl] at hshort
        omega
    have hraf : (fill c).read_all = true := by
      by_contra hx
      have h2 := fill_post c (bool_not_true hx)
      omega
    have hbuf2 : c2.buf = [] := by
      rw [hbuf]
      exact List.drop_eq_nil_of_le (le_of_lt hblt)
    have hr2 : c2.read_all = true := by rw [hra, hraf]
    refine ⟨?_, ?_⟩
    · rw [hremc2, hraf]
      simp [List.drop_eq_nil_of_le (le_of_lt hblt)]
    · have hfc2 : fill c2 = c2 := by
        obtain ⟨s2, r2, b2, u2⟩ := c2
        simp only [] at hr2
        rw [hr2]
        exact fill_of_read_all s2 b2 u2
      unfold StreamChunker.next
      rw [hfc2, hbuf2]
      rfl


/-- The sequence of chunks produced by repeated `StreamChunker::next` calls.
The real loop does not terminate for `block_size = 0` (it keeps emitting
empty chunks), so the sequence is defined only for a positive block size. -/
def chunks {α : Type} (c : StreamChunker α) : List (List α) :=
  if h0 : c.block_size = 0 then []
  else
    match h : StreamChunker.next c with
    | (none, _) => []
    | (some ch, c2) => ch :: chunks c2
termination_by measureC c
decreasing_by
  exact (next_some_spec c ch c2 (Nat.one_le_iff_ne_zero.mpr h0) h).2.2.2.2.1

theorem chunks_nil_of_none {α : Type} (c : StreamChunker α)
    (h0 : c.block_size ≠ 0) (h : (StreamChunker.next c).1 = none) :
    chunks c = [] := by
  rw [chunks]
  rw [dif_neg h0]
  split
  · rfl
  · rename_i ch c2 heq
    rw [heq] at h
    exact Option.noConfusion h

theorem chunks_cons_of_some {α : Type} (c : StreamChunker α) (ch : List α)
    (c2 : StreamChunker α) (h0 : c.block_size ≠ 0)
    (h : StreamChunker.next c = (some ch, c2)) :
    chunks c = ch :: chunks c2 := by
  rw [chunks]
  rw [dif_neg h0]
  split
  · rename_i x heq
    rw [h] at heq
    exact absurd (congrArg Prod.fst heq) (by simp)
  · rename_i ch2 c22 heq
    rw [h] at heq
    have h1 := congrArg Prod.fst heq
    have h2 := congrArg Prod.snd heq
    simp only [Prod.fst, Prod.snd] at h1 h2
    obtain rfl : ch2 = ch := by simpa using h1.symm
    obtain rfl : c22 = c2 := h2.symm
    rfl

/-- Concatenating the chunks restores the unemitted bytes. -/
theorem chunks_join {α : Type} :
    ∀ (n : Nat) (c : StreamChunker α), measureC c ≤ n → 1 ≤ c.block_size →
    (chunks c).flatten = rem c := by
  intro n
  induction n with
  | zero =>
    intro c hm hbs
    cases hnext : StreamChunker.next c with
    | mk o c2 =>
      cases o with
      | none =>
        rw [chunks_nil_of_none c (by omega) (by rw [hnext])]
        have := (next_none_iff c hbs).mp (by rw [hnext])
        simp [this]
      | some ch =>
        have := (next_some_spec c ch c2 hbs hnext).2.2.2.2.1
        omega
  | succ m ih =>
    intro c hm hbs
    cases hnext : StreamChunker.next c with
    | mk o c2 =>
      cases o with
      | none =>
        rw [chunks_nil_of_none c (by omega) (by rw [hnext])]
        have := (next_none_iff c hbs).mp (by rw [hnext])
        simp [this]
      | some ch =>
        obtain ⟨hjoin, _, _, hbs2, hmeas, _⟩ := next_some_spec c ch c2 hbs hnext
        rw [chunks_cons_of_some c ch c2 (by omega) hnext]
        rw [List.flatten_cons]
        rw [ih c2 (by omega) (by rw [hbs2]; exact hbs)]
        exact hjoin

/-- Every produced chunk has between 1 and `block_size` bytes. -/
theorem chunks_sizes {α : Type} :
    ∀ (n : Nat) (c : StreamChunker α), measureC c ≤ n → 1 ≤ c.block_size →
    ∀ ch ∈ chunks c, 1 ≤ ch.length ∧ ch.length ≤ c.block_size := by
  intro n
  induction n with
  | zero =>
    intro c hm hbs ch hch
    cases hnext : StreamChunker.next c with
    | mk o c2 =>
      cases o with
      | none =>
        rw [chunks_nil_of_none c (by omega) (by rw [hnext])] at hch
        simp at hch
      | some ch2 =>
        have := (next_some_spec c ch2 c2 hbs hnext).2.2.2.2.1
        omega
  | succ m ih =>
    intro c hm hbs ch hch
    cases hnext : StreamChunker.next c with
    | mk o c2 =>
      cases o with
      | none =>
        rw [chunks_nil_of_none c (by omega) (by rw [hnext])] at hch
        simp at hch
      | some ch2 =>
        obtain ⟨_, hlo, hhi, hbs2, hmeas, _⟩ := next_some_spec c ch2 c2 hbs hnext
        rw [chunks_cons_of_some c ch2 c2 (by omega) hnext] at hch
        rcases List.mem_cons.mp hch with rfl | hch2
        · exact ⟨hlo, hhi⟩
        · have := ih c2 (by omega) (by rw [hbs2]; exact hbs) ch hch2
          rw [hbs2] at this
          exact this

/-- Every chunk except possibly the last is exactly `block_size` long. -/
theorem chunks_full {α : Type} :
    ∀ (n : Nat) (c : StreamChunker α), measureC c ≤ n → 1 ≤ c.block_size →
    ∀ i : Nat, i + 1 < (chunks c).length →
    ∀ ch, (chunks c)[i]? = some ch → ch.length = c.block_size := by
  intro n
  induction n with
  | zero =>
    intro c hm hbs i hi ch hch
    cases hnext : StreamChunker.next c with
    | mk o c2 =>
      cases o with
      | none =>
        rw [chunks_nil_of_none c (by omega) (by rw [hnext])] at hi
        simp at hi
      | some ch2 =>
        have := (next_some_spec c ch2 c2 hbs hnext).2.2.2.2.1
        omega
  | succ m ih =>
    intro c hm hbs i hi ch hch
    cases hnext : StreamChunker.next c with
    | mk o c2 =>
      cases o with
      | none =>
        rw [chunks_nil_of_none c (by omega) (by rw [hnext])] at hi
        simp at hi
      | some ch2 =>
        obtain ⟨_, hlo, hhi, hbs2, hmeas, hshort⟩ :=
          next_some_spec c ch2 c2 hbs hnext
        rw [chunks_cons_of_some c ch2 c2 (by omega) hnext] at hi hch
        cases i with
        | zero =>
          have hcheq : ch2 = ch := by simpa using hch
          rw [← hcheq]
          by_contra hne
          have hlt : ch2.length < c.block_size := lt_of_le_of_ne hhi hne
          obtain ⟨hrem2, hnone2⟩ := hshort hlt
          have : chunks c2 = [] :=
            chunks_nil_of_none c2 (by rw [hbs2]; omega) (by rw [hnone2])
          rw [this] at hi
          simp at hi
        | succ j =>
          simp only [List.length_cons] at hi
          have hch2 : (chunks c2)[j]? = some ch := by simpa using hch
          have := ih c2 (by omega) (by rw [hbs2]; exact hbs) j (by omega) ch hch2
          rw [hbs2] at this
          exact this

/-- C9: for every input stream and every `block_size ≥ 1`, the chunks
produced by repeated `StreamChunker::next` calls concatenate to exactly the
input bytes; every chunk except possibly the last is exactly `block_size`
long; every chunk, the last included, has between 1 and `block_size` bytes;
and on any state with this block size, `next` returns `none` exactly when no
unemitted bytes remain. -/
theorem stream_chunker_spec {α : Type} (stream : List (List α)) (bs : Nat)
    (hbs : 1 ≤ bs) :
    (chunks (StreamChunker.new stream bs)).flatten = stream.flatten ∧
    (∀ ch ∈ chunks (StreamChunker.new stream bs),
      1 ≤ ch.length ∧ ch.length ≤ bs) ∧
    (∀ i : Nat, i + 1 < (chunks (StreamChunker.new stream bs)).length →
      ∀ ch, (chunks (StreamChunker.new stream bs))[i]? = some ch →
        ch.length = bs) ∧
    (∀ c : StreamChunker α, c.block_size = bs →
      ((StreamChunker.next c).1 = none ↔ rem c = [])) := by
  have hrem : rem (StreamChunker.new stream bs) = stream.flatten := by
    simp [rem, StreamChunker.new]
  refine ⟨?_, ?_, ?_, ?_⟩
  · rw [chunks_join (measureC (StreamChunker.new stream bs)) _ (le_refl _) hbs]
    exact hrem
  · exact chunks_sizes (measureC (StreamChunker.new stream bs)) _ (le_refl _) hbs
  · exact chunks_full (measureC (StreamChunker.new stream bs)) _ (le_refl _) hbs
  · intro c hc
    exact next_none_iff c (hc ▸ hbs)

/-- Witness for `stream_chunker_spec`: chunking `[1,2,3] ++ [4]` at block
size 2. -/
theorem stream_chunker_spec_witness :
    (chunks (StreamChunker.new [[1, 2, 3], [4]] 2)).flatten = [1, 2, 3, 4] := by
  have h := stream_chunker_spec (α := Nat) [[1, 2, 3], [4]] 2 (by decide)
  simpa using h.1

/-! ## table/sync.rs: offloading a partition this node does not store

A table store is an association list from the serialized tree key (an
abstract Nat, ordered like the byte string) to the serialized row bytes
(a Nat list).  The DB tree has at most one row per key. -/

/-- A row of the store lies in the half-open hash range `[b, e)`. -/
def inRange (b e : Nat) (kv : Nat × List Nat) : Bool :=
  decide (b ≤ kv.1) && decide (kv.1 < e)

/-- The rows of the store in `[b, e)`, in key order. -/
def rangeEntries (store : List (Nat × List Nat)) (b e : Nat) :
    List (Nat × List Nat) :=
  store.filter (inRange b e)

/-- The batch read by one iteration of `offload_partition` (sync.rs lines
259-268): scan the range `begin..end` and stop after 1024 rows. -/
def read_batch (store : List (Nat × List Nat)) (b e : Nat) :
    List (Nat × List Nat) :=
  (rangeEntries store b e).take 1024

/-- Modelled from the spec: `TableData::delete_if_equal` (table/data.rs is
not under src/) — a transaction that removes the row at `k` only if its
serialized value still equals `v`. -/
def delete_if_equal (store : List (Nat × List Nat)) (k : Nat) (v : List Nat) :
    List (Nat × List Nat) :=
  if lookupKV store k = some v then store.filter (fun kv => kv.1 ≠ k)
  else store

/-- The row-by-row local deletion after a successful `Items` RPC (sync.rs
lines 339-344). -/
def deleteBatch (store : List (Nat × List Nat))
    (items : List (Nat × List Nat)) : List (Nat × List Nat) :=
  items.foldl (fun st kv => delete_if_equal st kv.1 kv.2) store

/-- One `Items` RPC as observed on the wire: the values sent, the
destination nodes and the quorum demanded of `try_call_many`. -/
structure SentBatch where
  values : List (List Nat)
  dest : List Nat
  quorum : Nat
  deriving DecidableEq, Repr

/-- Embedding of `TableSyncer::offload_items` (sync.rs lines 309-351): send
the batch values to all `nodes` with quorum `nodes.len()`; only if the RPC
succeeds, `delete_if_equal` each row locally; on RPC failure the error
propagates with nothing deleted. -/
def offload_items (items : List (Nat × List Nat)) (nodes : List Nat)
    (rpc_ok : Bool) (store : List (Nat × List Nat)) :
    SentBatch × Except String (List (Nat × List Nat)) :=
  (⟨items.map Prod.snd, nodes, nodes.length⟩,
   if rpc_ok then Except.ok (deleteBatch store items)
   else Except.error "rpc failed")

/-- Embedding of the loop of `TableSyncer::offload_partition` (sync.rs lines
250-307).  Each round re-reads a batch of at most 1024 rows of
`[begin, end)`; an empty batch or a replica set containing this node ends
the loop; fewer nodes than the write quorum is an error; otherwise the batch
goes through `offload_items` and the loop continues on the updated store.
`rpc` gives the outcome of the i-th `Items` call.  The Rust loop is unbounded
(it can loop forever if rows keep reappearing); `fuel` bounds the rounds, and
the specification shows one round per batch suffices. -/
def offload_partition (b e my_id : Nat) (nodes : List Nat) (wq : Nat)
    (rpc : Nat → Bool) :
    Nat → List (Nat × List Nat) → Nat →
    Except String (List (Nat × List Nat)) × List SentBatch
  | 0, _, _ => (Except.error "loop bound exhausted", [])
  | fuel + 1, store, i =>
    if (read_batch store b e).isEmpty then (Except.ok store, [])
    else if nodes.contains my_id then (Except.ok store, [])
    else if nodes.length < wq then
      (Except.error "Not offloading as we do not have a quorum of nodes to write to.", [])
    else
      match offload_items (read_batch store b e) nodes (rpc i) store with
      | (sent, Except.error err) => (Except.error err, [sent])
      | (sent, Except.ok store2) =>
        ((offload_partition b e my_id nodes wq rpc fuel store2 (i + 1)).1,
         sent :: (offload_partition b e my_id nodes wq rpc fuel store2 (i + 1)).2)

/-- In a store with unique keys, lookup of a member returns its value. -/
theorem lookupKV_eq_of_mem {β : Type} (store : List (Nat × β)) (k : Nat) (v : β)
    (hnd : (store.map Prod.fst).Nodup) (hmem : (k, v) ∈ store) :
    lookupKV store k = some v := by
  induction store with
  | nil => simp at hmem
  | cons hd tl ih =>
    rw [List.map_cons, List.nodup_cons] at hnd
    rcases List.mem_cons.mp hmem with heq | hmem2
    · rw [← heq]
      simp [lookupKV, List.find?]
    · have hk : k ∈ tl.map Prod.fst := List.mem_map.mpr ⟨(k, v), hmem2, rfl⟩
      have hne : (decide (hd.1 = k)) = false := by
        simpa using fun h : hd.1 = k => hnd.1 (h ▸ hk)
      simp only [lookupKV, List.find?, hne] at ih ⊢
      exact ih hnd.2 hmem2

/-- Rows whose serialized value changed since the scan are not deleted. -/
theorem delete_if_equal_of_ne (store : List (Nat × List Nat)) (k : Nat)
    (v : List Nat) (h : lookupKV store k ≠ some v) :
    delete_if_equal store k v = store := by
  unfold delete_if_equal
  rw [if_neg h]

/-- Rows whose serialized value still matches are removed. -/
theorem delete_if_equal_of_eq (store : List (Nat × List Nat)) (k : Nat)
    (v : List Nat) (h : lookupKV store k = some v) :
    delete_if_equal store k v = store.filter (fun kv => kv.1 ≠ k) := by
  unfold delete_if_equal
  rw [if_pos h]

/-- Two rows of a unique-key store with the same key are the same row. -/
theorem mem_unique_key {β : Type} (store : List (Nat × β))
    (hnd : (store.map Prod.fst).Nodup) (x y : Nat × β) (hx : x ∈ store)
    (hy : y ∈ store) (hkey : x.1 = y.1) : x = y := by
  induction store with
  | nil => simp at hx
  | cons hd tl ih =>
    rw [List.map_cons, List.nodup_cons] at hnd
    rcases List.mem_cons.mp hx with rfl | hx2
    · rcases List.mem_cons.mp hy with rfl | hy2
      · rfl
      · exact absurd (hkey ▸ List.mem_map.mpr ⟨y, hy2, rfl⟩) hnd.1
    · rcases List.mem_cons.mp hy with rfl | hy2
      · exact absurd (hkey ▸ List.mem_map.mpr ⟨x, hx2, rfl⟩) hnd.1
      · exact ih hnd.2 hx2 hy2

/-- Deleting a scanned batch from a unique-key store removes exactly the
batch keys. -/
theorem deleteBatch_eq (items : List (Nat × List Nat)) :
    ∀ (store : List (Nat × List Nat)),
    (store.map Prod.fst).Nodup → (∀ kv ∈ items, kv ∈ store) →
    (items.map Prod.fst).Nodup →
    deleteBatch store items =
      store.filter (fun kv => !((items.map Prod.fst).contains kv.1)) := by
  induction items with
  | nil =>
    intro store _ _ _
    simp [deleteBatch]
  | cons it rest ih =>
    intro store hnd hsub hndi
    obtain ⟨k1, v1⟩ := it
    rw [List.map_cons, List.nodup_cons] at hndi
    have hmem : (k1, v1) ∈ store := hsub _ (List.mem_cons_self _ _)
    have hl : lookupKV store k1 = some v1 := lookupKV_eq_of_mem store k1 v1 hnd hmem
    have hstep : deleteBatch store ((k1, v1) :: rest) =
        deleteBatch (store.filter (fun kv => kv.1 ≠ k1)) rest := by
      simp only [deleteBatch, List.foldl_cons]
      rw [delete_if_equal_of_eq store k1 v1 hl]
    rw [hstep]
    have hnd2 : ((store.filter (fun kv => kv.1 ≠ k1)).map Prod.fst).Nodup :=
      List.Nodup.sublist (List.Sublist.map Prod.fst (List.filter_sublist store)) hnd
    have hsub2 : ∀ kv ∈ rest, kv ∈ store.filter (fun kv => kv.1 ≠ k1) := by
      intro kv hkv
      rw [List.mem_filter]
      refine ⟨hsub _ (List.mem_cons_of_mem _ hkv), ?_⟩
      have : kv.1 ∈ rest.map Prod.fst := List.mem_map.mpr ⟨kv, hkv, rfl⟩
      simpa using fun h : kv.1 = k1 => hndi.1 (h ▸ this)
    rw [ih _ hnd2 hsub2 hndi.2]
    rw [List.filter_filter]
    apply List.filter_congr
    intro x _
    by_cases hx : x.1 = k1
    · simp [hx]
    · simp [hx]

/-- Filtering out the keys of the first `n` rows of a unique-key list keeps
exactly the rows after them. -/
theorem filter_keys_take_drop {β : Type} (l : List (Nat × β)) :
    ∀ n : Nat, (l.map Prod.fst).Nodup →
    l.filter (fun kv => !(((l.take n).map Prod.fst).contains kv.1)) =
      l.drop n := by
  induction l with
  | nil => intro n _; simp
  | cons hd tl ih =>
    intro n hnd
    rw [List.map_cons, List.nodup_cons] at hnd
    cases n with
    | zero => simp
    | succ m =>
      rw [List.take_succ_cons, List.drop_succ_cons, List.map_cons,
        List.filter_cons]
      have hhd : (!((hd.1 :: ((tl.take m).map Prod.fst)).contains hd.1)) = false := by
        simp
      rw [hhd]
      simp only [Bool.false_eq_true, if_false]
      have hcongr : tl.filter
          (fun kv => !((hd.1 :: ((tl.take m).map Prod.fst)).contains kv.1)) =
          tl.filter (fun kv => !(((tl.take m).map Prod.fst).contains kv.1)) := by
        apply List.filter_congr
        intro x hx
        have hxk : x.1 ∈ tl.map Prod.fst := List.mem_map.mpr ⟨x, hx, rfl⟩
        have hne : ¬(x.1 = hd.1) := fun h => hnd.1 (h ▸ hxk)
        have hbeq : (x.1 == hd.1) = false := by simpa using hne
        simp only [List.contains_cons, hbeq, Bool.false_or]
      rw [hcongr, ih m hnd.2]

/-- Range extraction commutes with any row filter. -/
theorem rangeEntries_filter (store : List (Nat × List Nat)) (b e : Nat)
    (p : Nat × List Nat → Bool) :
    rangeEntries (store.filter p) b e = (rangeEntries store b e).filter p := by
  unfold rangeEntries
  rw [List.filter_filter, List.filter_filter]
  apply List.filter_congr
  intro x _
  exact Bool.and_comm _ _

/-- The loop of `offload_partition`, on a unique-key store with this node
not in the destination set, enough destination nodes, and successful RPC
calls: it terminates with exactly the rows outside `[b, e)` kept, and every
batch sent has at most 1024 values, is addressed to the full destination
set with a full-set quorum, and carries only values of rows of `[b, e)`. -/
theorem offload_loop_spec (b e my_id : Nat) (nodes : List Nat) (wq : Nat)
    (rpc : Nat → Bool) (hmy : my_id ∉ nodes)
    (hwq : ¬nodes.length < wq) (hrpc : ∀ j, rpc j = true) :
    ∀ (fuel : Nat) (store : List (Nat × List Nat)) (i : Nat),
    (store.map Prod.fst).Nodup →
    (rangeEntries store b e).length < fuel →
    (offload_partition b e my_id nodes wq rpc fuel store i).1 =
      Except.ok (store.filter (fun kv => !(inRange b e kv))) ∧
    (∀ s ∈ (offload_partition b e my_id nodes wq rpc fuel store i).2,
      s.dest = nodes ∧ s.quorum = nodes.length ∧ s.values.length ≤ 1024 ∧
      ∀ v ∈ s.values, v ∈ (rangeEntries store b e).map Prod.snd) := by
  intro fuel
  induction fuel with
  | zero =>
    intro store i _ hf
    omega
  | succ m ih =>
    intro store i hnd hf
    by_cases hempty : (read_batch store b e).isEmpty
    · have hrange : rangeEntries store b e = [] := by
        unfold read_batch at hempty
        cases hr : rangeEntries store b e with
        | nil => rfl
        | cons a t =>
          rw [hr] at hempty
          simp at hempty
      have hfilter : store.filter (fun kv => !(inRange b e kv)) = store := by
        rw [List.filter_eq_self]
        intro a ha
        by_contra hcontra
        have hin : inRange b e a = true := by
          revert hcontra
          cases inRange b e a <;> simp
        have : a ∈ rangeEntries store b e := List.mem_filter.mpr ⟨ha, hin⟩
        rw [hrange] at this
        simp at this
      constructor
      · simp only [offload_partition]
        rw [if_pos hempty, hfilter]
      · simp only [offload_partition]
        rw [if_pos hempty]
        intro s hs
        simp at hs
    · have hbne : read_batch store b e ≠ [] := by
        simpa [List.isEmpty_iff] using hempty
      have hsubb : ∀ kv ∈ read_batch store b e, kv ∈ store := by
        intro kv hkv
        exact (((List.take_sublist 1024 _).trans
          (List.filter_sublist store)).subset) hkv
      have hndb : ((read_batch store b e).map Prod.fst).Nodup := by
        refine List.Nodup.sublist (List.Sublist.map Prod.fst ?_) hnd
        exact (List.take_sublist 1024 _).trans (List.filter_sublist store)
      have hstore2 : deleteBatch store (read_batch store b e) =
          store.filter
            (fun kv => !(((read_batch store b e).map Prod.fst).contains kv.1)) :=
        deleteBatch_eq (read_batch store b e) store hnd hsubb hndb
      have hndr : ((rangeEntries store b e).map Prod.fst).Nodup :=
        List.Nodup.sublist (List.Sublist.map Prod.fst (List.filter_sublist store)) hnd
      have hrange2 : rangeEntries (deleteBatch store (read_batch store b e)) b e =
          (rangeEntries store b e).drop 1024 := by
        rw [hstore2, rangeEntries_filter]
        exact filter_keys_take_drop (rangeEntries store b e) 1024 hndr
      have hrne : rangeEntries store b e ≠ [] := by
        intro hcon
        apply hbne
        unfold read_batch
        rw [hcon]
        rfl
      have hrlen1 : 1 ≤ (rangeEntries store b e).length := by
        cases hr : rangeEntries store b e with
        | nil => exact absurd hr hrne
        | cons a t => simp [hr]
      have hflen : (rangeEntries (deleteBatch store (read_batch store b e)) b e).length < m := by
        rw [hrange2, List.length_drop]
        omega
      have hnd2 : ((deleteBatch store (read_batch store b e)).map Prod.fst).Nodup := by
        rw [hstore2]
        exact List.Nodup.sublist (List.Sublist.map Prod.fst (List.filter_sublist store)) hnd
      obtain ⟨ih1, ih2⟩ := ih (deleteBatch store (read_batch store b e)) (i + 1) hnd2 hflen
      have hfinal : (deleteBatch store (read_batch store b e)).filter
          (fun kv => !(inRange b e kv)) =
          store.filter (fun kv => !(inRange b e kv)) := by
        rw [hstore2, List.filter_filter]
        apply List.filter_congr
        intro x hx
        cases hin : inRange b e x with
        | true => simp [hin]
        | false =>
          have hxnotbk :
              (((read_batch store b e).map Prod.fst).contains x.1) = false := by
            cases hc : ((read_batch store b e).map Prod.fst).contains x.1 with
            | false => rfl
            | true =>
              exfalso
              have hbk2 : x.1 ∈ (read_batch store b e).map Prod.fst := by
                simpa using hc
              obtain ⟨y, hy, hyk⟩ := List.mem_map.mp hbk2
              have hyr : y ∈ rangeEntries store b e :=
                ((List.take_sublist 1024 _).subset) hy
              have hyin : inRange b e y = true := (List.mem_filter.mp hyr).2
              have hxy : x = y :=
                mem_unique_key store hnd x y hx (hsubb y hy) hyk.symm
              rw [hxy, hyin] at hin
              exact Bool.noConfusion hin
          rw [hxnotbk]
          rfl
      have hunfold : offload_partition b e my_id nodes wq rpc (m + 1) store i =
          ((offload_partition b e my_id nodes wq rpc m
              (deleteBatch store (read_batch store b e)) (i + 1)).1,
            (⟨(read_batch store b e).map Prod.snd, nodes, nodes.length⟩ : SentBatch) ::
              (offload_partition b e my_id nodes wq rpc m
                (deleteBatch store (read_batch store b e)) (i + 1)).2) := by
        simp only [offload_partition]
        rw [if_neg (by simpa using hempty), if_neg (by simpa using hmy),
          if_neg hwq]
        simp only [offload_items, hrpc i]
        rfl
      constructor
      · rw [hunfold]
        simpa using ih1.trans (by rw [hfinal])
      · rw [hunfold]
        intro s hs
        simp only [List.mem_cons] at hs
        rcases hs with rfl | hs2
        · refine ⟨rfl, rfl, ?_, ?_⟩
          · have : (read_batch store b e).length ≤ 1024 := by
              unfold read_batch
              rw [List.length_take]
              exact min_le_left _ _
            simpa using this
          · intro v hv
            simp only at hv
            obtain ⟨kv, hkv, hkv2⟩ := List.mem_map.mp hv
            refine List.mem_map.mpr ⟨kv, ?_, hkv2⟩
            exact (List.take_sublist 1024 _).subset hkv
        · obtain ⟨hd1, hq1, hl1, hv1⟩ := ih2 s hs2
          refine ⟨hd1, hq1, hl1, ?_⟩
          intro v hv
          have := hv1 v hv
          rw [hrange2] at this
          obtain ⟨kv, hkv, hkv2⟩ := List.mem_map.mp this
          exact List.mem_map.mpr ⟨kv, (List.drop_sublist 1024 _).subset hkv, hkv2⟩

/-- C5: offloading a partition this node does not replicate scans the rows of
`[first_hash, last_hash)` in batches of at most 1024, sends every batch to
the partition replicas via `Items` with a quorum equal to the full size of
the destination set, and deletes each row locally only after the RPC
succeeded (an RPC failure aborts with no deletion) and only if the row still
holds the scanned bytes (`delete_if_equal`); when every RPC succeeds the
loop ends with exactly the rows outside the range remaining. -/
theorem offload_partition_spec (store : List (Nat × List Nat))
    (b e my_id : Nat) (nodes : List Nat) (wq : Nat) (rpc : Nat → Bool)
    (fuel : Nat) (hnd : (store.map Prod.fst).Nodup) (hmy : my_id ∉ nodes)
    (hwq : wq ≤ nodes.length) (hrpc : ∀ j, rpc j = true)
    (hfuel : (rangeEntries store b e).length < fuel) :
    (offload_partition b e my_id nodes wq rpc fuel store 0).1 =
      Except.ok (store.filter (fun kv => !(inRange b e kv))) ∧
    (∀ s ∈ (offload_partition b e my_id nodes wq rpc fuel store 0).2,
      s.dest = nodes ∧ s.quorum = nodes.length ∧ s.values.length ≤ 1024 ∧
      ∀ v ∈ s.values, v ∈ (rangeEntries store b e).map Prod.snd) ∧
    (∀ (items : List (Nat × List Nat)) (s2 : List (Nat × List Nat)),
      (offload_items items nodes false s2).2 = Except.error "rpc failed") ∧
    (∀ (s2 : List (Nat × List Nat)) (k : Nat) (v : List Nat),
      lookupKV s2 k ≠ some v → delete_if_equal s2 k v = s2) := by
  obtain ⟨h1, h2⟩ := offload_loop_spec b e my_id nodes wq rpc hmy
    (not_lt.mpr hwq) hrpc fuel store 0 hnd hfuel
  exact ⟨h1, h2, fun items s2 => rfl, fun s2 k v h => delete_if_equal_of_ne s2 k v h⟩

/-- Witness for `offload_partition_spec`: two rows inside the range `[4, 10)`
are offloaded to the two replicas and deleted; the row at key 20 stays. -/
theorem offload_partition_spec_witness :
    (offload_partition 4 10 9 [1, 2] 2 (fun _ => true) 3
      [(5, [1]), (7, [2]), (20, [3])] 0).1 = Except.ok [(20, [3])] := by
  have h := offload_partition_spec [(5, [1]), (7, [2]), (20, [3])] 4 10 9 [1, 2]
    2 (fun _ => true) 3 (by decide) (by decide) (by decide) (fun j => rfl)
    (by decide)
  rw [h.1]
  rfl

end Garage
